import Mathlib

/-!
Verification of the subtitle segmentation and timing pipeline of the
Subtitle-creator repository.  The definitions below are a shallow embedding
of the `srt` branch of `handleDownload` and of `formatTimestamp` in
`components/SubtitleEditor.tsx`, together with the `prtranscript` export.
JavaScript numbers are modelled as exact rationals; JavaScript strings as
Lean strings (character counts stand in for UTF-16 code-unit counts).
-/

namespace SubtitleCreator

/-- A word-level token as produced by the transcription service:
`{ word, startTime, endTime }` (see `types.ts` usage throughout the app). -/
structure SubtitleWord where
  word : String
  startTime : ℚ
  endTime : ℚ
deriving Repr, DecidableEq

/-- One subtitle line or block: the element shape of `srtLines` and
`finalSrtBlocks` in `handleDownload` (`{ text, startTime, endTime }`). -/
structure SrtCue where
  text : String
  startTime : ℚ
  endTime : ℚ
deriving Repr, DecidableEq

/-- The `lines` setting of the editor: `'single' | 'double'`. -/
inductive LinesOpt where
  | single
  | double
deriving Repr, DecidableEq

/-- Is the character a carriage return or line feed (the class `[\r\n]`)? -/
def isNewlineChar (c : Char) : Bool :=
  c == '\r' || c == '\n'

/-- State-machine embedding of `word.replace(/[\r\n]+/g, ' ')`: every maximal
run of CR/LF characters becomes a single space.  The boolean records whether
the previous character belonged to such a run. -/
def collapseNewlines : Bool → List Char → List Char
  | _, [] => []
  | prevNL, c :: cs =>
    if isNewlineChar c then
      if prevNL then collapseNewlines true cs
      else ' ' :: collapseNewlines true cs
    else c :: collapseNewlines false cs

/-- Removal of leading and trailing whitespace, modelling `String.trim`. -/
def trimChars (l : List Char) : List Char :=
  ((l.dropWhile Char.isWhitespace).reverse.dropWhile Char.isWhitespace).reverse

/-- The per-word sanitization of `handleDownload`:
`wordData.word.replace(/[\r\n]+/g, ' ').trim()`. -/
def sanitizeWord (s : String) : String :=
  (trimChars (collapseNewlines false s.toList)).asString

/-- The grouping loop of `handleDownload` step 1 (lines 188-212 of
`SubtitleEditor.tsx`).  `cur` is `currentLine`; `prevEnd` is the value of
`subtitles[i-1].endTime` for the current index `i` (it is threaded through
every iteration, including skipped empty words, exactly as the array index
arithmetic does; the initial value is never read because the close branch
requires a non-empty accumulated text). -/
def segGo (maxChars : ℕ) (cur : SrtCue) (prevEnd : ℚ) :
    List SubtitleWord → List SrtCue
  | [] => if cur.text = "" then [] else [cur]
  | t :: rest =>
    let w := sanitizeWord t.word
    if w = "" then
      segGo maxChars cur t.endTime rest
    else
      let newText := if cur.text = "" then w else cur.text ++ " " ++ w
      if newText.length > maxChars ∧ cur.text ≠ "" then
        { cur with endTime := prevEnd } ::
          segGo maxChars ⟨w, t.startTime, t.endTime⟩ t.endTime rest
      else
        segGo maxChars ⟨newText, cur.startTime, t.endTime⟩ t.endTime rest

/-- Step 1 of the `srt` export: group words into lines based on `maxChars`.
`currentLine` starts as `{ text: '', startTime: subtitles[0].startTime,
endTime: 0 }` and the loop runs over the whole token list. -/
def segmentLines (maxChars : ℕ) : List SubtitleWord → List SrtCue
  | [] => []
  | t :: rest => segGo maxChars ⟨"", t.startTime, 0⟩ 0 (t :: rest)

/-- The pairing loop of `handleDownload` step 2 for the `'double'` setting:
consecutive lines are joined with a newline; a trailing odd line is kept. -/
def pairUpLines : List SrtCue → List SrtCue
  | [] => []
  | [l] => [l]
  | l1 :: l2 :: rest =>
    ⟨l1.text ++ "\n" ++ l2.text, l1.startTime, l2.endTime⟩ :: pairUpLines rest

/-- Step 2 of the `srt` export: `finalSrtBlocks` from `srtLines`. -/
def composeBlocks : LinesOpt → List SrtCue → List SrtCue
  | .single, ls => ls
  | .double, ls => pairUpLines ls

/-- The body of the `forEach` of `handleDownload` step 3 at index `i`,
acting on the whole current array state: enforce minimum duration, then
(when a next block exists) clamp to `nextBlock.startTime - gap`, then the
50 ms (= 1/20 s) fallback when the clamp left a non-positive duration.
Only `endTime` of the block at `i` is written. -/
def ppBody (minDuration gap : ℚ) (bs : List SrtCue) (i : ℕ) : List SrtCue :=
  match bs[i]? with
  | none => bs
  | some b =>
    let e1 := if b.endTime - b.startTime < minDuration
              then b.startTime + minDuration else b.endTime
    let e2 :=
      match bs[i+1]? with
      | some nb =>
        let requiredEnd := nb.startTime - gap
        let ec := if e1 > requiredEnd then requiredEnd else e1
        if ec ≤ b.startTime then b.startTime + 1/20 else ec
      | none => e1
    bs.set i { b with endTime := e2 }

/-- Step 3 of the `srt` export: the in-place `forEach` post-processing pass,
modelled as a fold of the per-index body over the indices in order. -/
def postProcess (minDuration gap : ℚ) (blocks : List SrtCue) : List SrtCue :=
  (List.range blocks.length).foldl (ppBody minDuration gap) blocks

/-- Modelled from the spec wording of the post-processor, step 1: if
`end - start < minDuration`, extend `end = start + minDuration`. -/
def minDurStep (minDuration : ℚ) (b : SrtCue) : SrtCue :=
  if b.endTime - b.startTime < minDuration
  then { b with endTime := b.startTime + minDuration } else b

/-- Modelled from the spec wording of the post-processor, step 2 (taken when
a next block exists): compute `requiredEnd = nextStart - gap` and clamp
`end` down to it when `end` exceeds it. -/
def clampStep (gap nextStart : ℚ) (b : SrtCue) : SrtCue :=
  if b.endTime > nextStart - gap then { b with endTime := nextStart - gap } else b

/-- Modelled from the spec wording of the post-processor, step 3: after
clamping, if `end ≤ start`, fall back to `end = start + 0.05` (1/20 s). -/
def fallbackStep (b : SrtCue) : SrtCue :=
  if b.endTime ≤ b.startTime then { b with endTime := b.startTime + 1/20 } else b

/-- Steps 2 and 3 of the spec wording in order: clamp, then fallback. -/
def gapStep (gap nextStart : ℚ) (b : SrtCue) : SrtCue :=
  fallbackStep (clampStep gap nextStart b)

/-- Modelled from the spec wording of the post-processor: visit blocks in
order, apply the minimum-duration extension, and apply the gap clamp and
fallback exactly when a successor block exists (its start time is read from
the not-yet-processed successor, whose start is never modified). -/
def postProcessSpec (minDuration gap : ℚ) : List SrtCue → List SrtCue
  | [] => []
  | [b] => [minDurStep minDuration b]
  | b :: b' :: rest =>
    gapStep gap b'.startTime (minDurStep minDuration b) ::
      postProcessSpec minDuration gap (b' :: rest)

/-- The whole `srt` branch of `handleDownload` up to the block list that is
formatted: grouping, composing, and post-processing, with
`gapInSeconds = gapFrames / 30.0`. -/
def srtPipeline (maxChars : ℕ) (minDuration gapFrames : ℚ) (lines : LinesOpt)
    (subs : List SubtitleWord) : List SrtCue :=
  postProcess minDuration (gapFrames / 30) (composeBlocks lines (segmentLines maxChars subs))

/-- The outcome of the post-processing pass on one block, as a function of
the (never modified) start time of its successor, if any. -/
def ppStep (minDuration gap : ℚ) (b : SrtCue) : Option ℚ → SrtCue
  | none => minDurStep minDuration b
  | some ns => gapStep gap ns (minDurStep minDuration b)

lemma ppBody_cons_succ (minDuration gap : ℚ) (c : SrtCue) (bs : List SrtCue)
    (i : ℕ) :
    ppBody minDuration gap (c :: bs) (i + 1) = c :: ppBody minDuration gap bs i := by
  unfold ppBody
  simp only [List.getElem?_cons_succ]
  cases h : bs[i]? with
  | none => rfl
  | some b => rfl

lemma foldl_ppBody_succ (minDuration gap : ℚ) (l : List ℕ) :
    ∀ (c : SrtCue) (bs : List SrtCue),
      l.foldl (fun acc i => ppBody minDuration gap acc (i + 1)) (c :: bs) =
        c :: l.foldl (ppBody minDuration gap) bs := by
  induction l with
  | nil => intro c bs; rfl
  | cons x l ih =>
    intro c bs
    simp only [List.foldl_cons, ppBody_cons_succ]
    exact ih c _

lemma ppBody_zero (minDuration gap : ℚ) (b : SrtCue) (bs : List SrtCue) :
    ppBody minDuration gap (b :: bs) 0 =
      ppStep minDuration gap b (bs.head?.map SrtCue.startTime) :: bs := by
  cases bs with
  | nil =>
    simp only [ppBody, ppStep, minDurStep, List.getElem?_cons_zero,
      List.getElem?_cons_succ, List.getElem?_nil, List.head?_nil, Option.map_none']
    split <;> rfl
  | cons b' rest =>
    simp only [ppBody, ppStep, minDurStep, gapStep, clampStep, fallbackStep,
      List.getElem?_cons_zero, List.getElem?_cons_succ, List.head?_cons,
      Option.map_some']
    split_ifs <;> simp_all

lemma postProcess_cons (minDuration gap : ℚ) (b : SrtCue) (rest : List SrtCue) :
    postProcess minDuration gap (b :: rest) =
      ppStep minDuration gap b (rest.head?.map SrtCue.startTime) ::
        postProcess minDuration gap rest := by
  unfold postProcess
  simp only [List.length_cons, List.range_succ_eq_map, List.foldl_cons,
    List.foldl_map, Nat.succ_eq_add_one]
  rw [ppBody_zero]
  exact foldl_ppBody_succ minDuration gap _ _ _

lemma postProcessSpec_cons (minDuration gap : ℚ) (b : SrtCue) (rest : List SrtCue) :
    postProcessSpec minDuration gap (b :: rest) =
      ppStep minDuration gap b (rest.head?.map SrtCue.startTime) ::
        postProcessSpec minDuration gap rest := by
  cases rest <;> rfl

lemma postProcess_eq_spec (minDuration gap : ℚ) :
    ∀ bs : List SrtCue,
      postProcess minDuration gap bs = postProcessSpec minDuration gap bs := by
  intro bs
  induction bs with
  | nil => rfl
  | cons b rest ih =>
    rw [postProcess_cons, postProcessSpec_cons, ih]

lemma minDurStep_startTime (m : ℚ) (b : SrtCue) :
    (minDurStep m b).startTime = b.startTime := by
  unfold minDurStep; split <;> rfl

lemma clampStep_startTime (g ns : ℚ) (b : SrtCue) :
    (clampStep g ns b).startTime = b.startTime := by
  unfold clampStep; split <;> rfl

lemma fallbackStep_startTime (b : SrtCue) :
    (fallbackStep b).startTime = b.startTime := by
  unfold fallbackStep; split <;> rfl

lemma ppStep_startTime (m g : ℚ) (b : SrtCue) (ns : Option ℚ) :
    (ppStep m g b ns).startTime = b.startTime := by
  cases ns <;>
    simp [ppStep, gapStep, fallbackStep_startTime, clampStep_startTime,
      minDurStep_startTime]

lemma minDurStep_eq_max (m : ℚ) (b : SrtCue) :
    minDurStep m b = { b with endTime := max b.endTime (b.startTime + m) } := by
  unfold minDurStep
  split_ifs with h
  · congr 1
    rw [max_eq_right]
    linarith
  · rw [max_eq_left (by linarith)]

lemma fallbackStep_pos (b : SrtCue) :
    (fallbackStep b).startTime < (fallbackStep b).endTime := by
  unfold fallbackStep
  split_ifs with h
  · show b.startTime < b.startTime + 1 / 20
    linarith
  · show b.startTime < b.endTime
    exact not_le.mp h

lemma ppStep_pos (m g : ℚ) (hm : 0 < m) (b : SrtCue) (ns : Option ℚ) :
    (ppStep m g b ns).startTime < (ppStep m g b ns).endTime := by
  cases ns with
  | none =>
    simp only [ppStep, minDurStep]
    split_ifs with h
    · show b.startTime < b.startTime + m
      linarith
    · show b.startTime < b.endTime
      linarith
  | some ns => exact fallbackStep_pos _

lemma postProcessSpec_pos (m g : ℚ) (hm : 0 < m) :
    ∀ bs, ∀ b ∈ postProcessSpec m g bs, b.startTime < b.endTime := by
  intro bs
  induction bs with
  | nil => intro b hb; simp [postProcessSpec] at hb
  | cons x rest ih =>
    intro b hb
    rw [postProcessSpec_cons] at hb
    rcases List.mem_cons.mp hb with h | h
    · subst h
      exact ppStep_pos m g hm x _
    · exact ih b h

lemma ppStep_gap (m g ns : ℚ) (x : SrtCue) :
    g ≤ ns - (ppStep m g x (some ns)).endTime ∨
      (ppStep m g x (some ns)).endTime = (ppStep m g x (some ns)).startTime + 1 / 20 := by
  simp only [ppStep, gapStep, fallbackStep, clampStep]
  split_ifs with h1 h2 h3 <;> try dsimp only
  · exact Or.inr rfl
  · exact Or.inl (by linarith)
  · exact Or.inr rfl
  · exact Or.inl (by linarith)

/-- Boolean check for the positive-duration invariant. -/
def allPositiveDuration (bs : List SrtCue) : Bool :=
  bs.all fun b => decide (b.startTime < b.endTime)

/-- Boolean check for the inter-block gap invariant: each consecutive pair
either honors the gap or ended up in the 50 ms fallback state. -/
def gapsRespected (gap : ℚ) : List SrtCue → Bool
  | [] => true
  | [_] => true
  | b :: b' :: rest =>
    (decide (gap ≤ b'.startTime - b.endTime) ||
      decide (b.endTime = b.startTime + 1 / 20)) &&
      gapsRespected gap (b' :: rest)

lemma postProcessSpec_gaps (m g : ℚ) :
    ∀ bs, gapsRespected g (postProcessSpec m g bs) = true := by
  intro bs
  induction bs with
  | nil => rfl
  | cons x rest ih =>
    cases rest with
    | nil => rfl
    | cons y rest' =>
      rw [postProcessSpec_cons m g y rest'] at ih
      rw [postProcessSpec_cons m g x (y :: rest'), postProcessSpec_cons m g y rest']
      simp only [gapsRespected, Bool.and_eq_true, Bool.or_eq_true, decide_eq_true_eq]
      refine ⟨?_, ih⟩
      rw [ppStep_startTime m g y]
      simpa using ppStep_gap m g y.startTime x

lemma postProcessSpec_getLast? (m g : ℚ) :
    ∀ bs : List SrtCue,
      (postProcessSpec m g bs).getLast? = bs.getLast?.map (minDurStep m) := by
  intro bs
  induction bs with
  | nil => rfl
  | cons x rest ih =>
    cases rest with
    | nil => rfl
    | cons y rest' =>
      rw [postProcessSpec_cons m g x (y :: rest'), postProcessSpec_cons m g y rest',
        List.getLast?_cons_cons, ← postProcessSpec_cons m g y rest', ih,
        List.getLast?_cons_cons]

/-- The tokens of the spec's concrete scenario 1. -/
def demoTokens : List SubtitleWord :=
  [⟨"Hi", 0, 2/5⟩, ⟨"there", 1/2, 9/10⟩, ⟨"friend", 2, 5/2⟩]

/-- Claim C1: for every input token sequence and every configuration with
`minDuration > 0`, every block produced by the SRT export pipeline (after
post-processing) has `endTime` strictly greater than `startTime`. -/
theorem srt_blocks_positive_duration (maxChars : ℕ) (minDuration gapFrames : ℚ)
    (lines : LinesOpt) (subs : List SubtitleWord) (hm : 0 < minDuration) :
    allPositiveDuration (srtPipeline maxChars minDuration gapFrames lines subs) = true := by
  unfold srtPipeline allPositiveDuration
  rw [postProcess_eq_spec, List.all_eq_true]
  intro b hb
  exact decide_eq_true (postProcessSpec_pos _ _ hm _ b hb)

/-- Witness for C1 at the spec's scenario-1 tokens with the default
configuration (`maxChars = 20`, `minDuration = 1.2`, `gapFrames = 0`). -/
theorem srt_blocks_positive_duration_witness :
    allPositiveDuration (srtPipeline 20 (6/5) 0 LinesOpt.single demoTokens) = true :=
  srt_blocks_positive_duration 20 (6/5) 0 LinesOpt.single demoTokens (by norm_num)

/-- Claim C2: for every input token sequence and configuration, after
post-processing every consecutive pair of blocks honors the gap
`gapFrames / 30`, except for blocks left in the 50 ms fallback state
(`endTime = startTime + 1/20`), the only case where the gap cannot be
honored. -/
theorem srt_blocks_gap_respected (maxChars : ℕ) (minDuration gapFrames : ℚ)
    (lines : LinesOpt) (subs : List SubtitleWord) :
    gapsRespected (gapFrames / 30)
      (srtPipeline maxChars minDuration gapFrames lines subs) = true := by
  unfold srtPipeline
  rw [postProcess_eq_spec]
  exact postProcessSpec_gaps _ _ _

/-- Claim C3: the timing post-processor of the code (an in-place pass over
the block array) visits blocks in order and applies, per block, exactly the
spec's three steps in order: minimum-duration extension, then (when a next
block exists) the gap clamp, then the 50 ms fallback when the clamped end
is not strictly after the start. -/
theorem postProcess_three_step_order (minDuration gap : ℚ) (bs : List SrtCue) :
    postProcess minDuration gap bs = postProcessSpec minDuration gap bs :=
  postProcess_eq_spec minDuration gap bs

/-- Claim C10: the final block's end time is never reduced by
post-processing: it equals the maximum of its original end time and
`startTime + minDuration`, for every input and configuration. -/
theorem final_block_end_max (maxChars : ℕ) (minDuration gapFrames : ℚ)
    (lines : LinesOpt) (subs : List SubtitleWord) :
    (srtPipeline maxChars minDuration gapFrames lines subs).getLast? =
      (composeBlocks lines (segmentLines maxChars subs)).getLast?.map
        (fun b => { b with endTime := max b.endTime (b.startTime + minDuration) }) := by
  unfold srtPipeline
  rw [postProcess_eq_spec, postProcessSpec_getLast?]
  have h : minDurStep minDuration =
      fun b => { b with endTime := max b.endTime (b.startTime + minDuration) } :=
    funext fun b => minDurStep_eq_max minDuration b
  rw [h]

lemma segGo_budget (maxChars : ℕ) (S : List SubtitleWord) :
    ∀ (toks : List SubtitleWord) (cur : SrtCue) (prevEnd : ℚ),
      (∀ t ∈ toks, t ∈ S) →
      (cur.text = "" ∨ cur.text.length ≤ maxChars ∨
        ∃ t ∈ S, cur.text = sanitizeWord t.word) →
      ∀ l ∈ segGo maxChars cur prevEnd toks,
        l.text.length ≤ maxChars ∨ ∃ t ∈ S, l.text = sanitizeWord t.word := by
  intro toks
  induction toks with
  | nil =>
    intro cur prevEnd _ hcur l hl
    simp only [segGo] at hl
    by_cases h : cur.text = ""
    · simp [h] at hl
    · rw [if_neg h] at hl
      rcases List.mem_singleton.mp hl with rfl
      rcases hcur with h0 | h1 | h2
      · exact absurd h0 h
      · exact Or.inl h1
      · exact Or.inr h2
  | cons t rest ih =>
    intro cur prevEnd hsub hcur l hl
    have hsub' : ∀ u ∈ rest, u ∈ S := fun u hu => hsub u (List.mem_cons_of_mem t hu)
    have htS : t ∈ S := hsub t (List.mem_cons_self t rest)
    simp only [segGo] at hl
    by_cases hw : sanitizeWord t.word = ""
    · rw [if_pos hw] at hl
      exact ih cur t.endTime hsub' hcur l hl
    · rw [if_neg hw] at hl
      by_cases hcond :
          (if cur.text = "" then sanitizeWord t.word
            else cur.text ++ " " ++ sanitizeWord t.word).length > maxChars ∧
            cur.text ≠ ""
      · rw [if_pos hcond] at hl
        rcases List.mem_cons.mp hl with rfl | h
        · rcases hcur with h0 | h1 | h2
          · exact absurd h0 hcond.2
          · exact Or.inl h1
          · exact Or.inr h2
        · exact ih _ t.endTime hsub'
            (Or.inr (Or.inr ⟨t, htS, rfl⟩)) l h
      · rw [if_neg hcond] at hl
        refine ih _ t.endTime hsub' ?_ l hl
        by_cases h0 : cur.text = ""
        · rw [if_pos h0]
          exact Or.inr (Or.inr ⟨t, htS, rfl⟩)
        · rcases not_and_or.mp hcond with hlen | hne
          · exact Or.inr (Or.inl (not_lt.mp hlen))
          · exact absurd h0 hne

/-- Boolean check that a line respects the character budget or is the
sanitized text of a single input token. -/
def lineBudgetOk (maxChars : ℕ) (toks : List SubtitleWord) (l : SrtCue) : Bool :=
  decide (l.text.length ≤ maxChars) ||
    toks.any fun t => decide (l.text = sanitizeWord t.word)

/-- Claim C4: every line emitted by the segmenter either has text length at
most `maxChars` or is the (unsplit) sanitized text of exactly one input
token — the only permitted overflow. -/
theorem segment_lines_char_budget (maxChars : ℕ) (toks : List SubtitleWord) :
    (segmentLines maxChars toks).all (lineBudgetOk maxChars toks) = true := by
  rw [List.all_eq_true]
  intro l hl
  unfold lineBudgetOk
  cases toks with
  | nil => simp [segmentLines] at hl
  | cons t rest =>
    simp only [segmentLines] at hl
    have h := segGo_budget maxChars (t :: rest) (t :: rest) ⟨"", t.startTime, 0⟩ 0
      (fun u hu => hu) (Or.inl rfl) l hl
    simp only [Bool.or_eq_true, decide_eq_true_eq, List.any_eq_true]
    exact h

/-- Claim C5 counterexample: with `maxChars = 1` each word forms its own
line.  The second token starts at 1/5, before the first token's end time 1;
under the claimed monotonicity repair its start would have been shifted to
exactly 1, but the emitted line keeps the original overlapping start time
1/5 < 1 — no repair pass exists before segmentation. -/
theorem no_start_time_repair_counterexample :
    segmentLines 1 [⟨"aa", 0, 1⟩, ⟨"bb", 1/5, 1/2⟩] =
        [⟨"aa", 0, 1⟩, ⟨"bb", 1/5, 1/2⟩] ∧
      ¬ ((1 : ℚ) ≤ 1/5) := by
  refine ⟨by rfl, by norm_num⟩

/-- Boolean check that a line's start and end times are (unchanged) start
and end times of input tokens. -/
def lineTimesFromTokens (toks : List SubtitleWord) (l : SrtCue) : Bool :=
  (toks.any fun t => decide (l.startTime = t.startTime)) &&
    (toks.any fun t => decide (l.endTime = t.endTime))

lemma segGo_times (maxChars : ℕ) (S : List SubtitleWord) :
    ∀ (toks : List SubtitleWord) (cur : SrtCue) (prevEnd : ℚ),
      (∀ t ∈ toks, t ∈ S) →
      (∃ t ∈ S, cur.startTime = t.startTime) →
      (cur.text ≠ "" → ∃ t ∈ S, cur.endTime = t.endTime) →
      (cur.text ≠ "" → ∃ t ∈ S, prevEnd = t.endTime) →
      ∀ l ∈ segGo maxChars cur prevEnd toks,
        (∃ t ∈ S, l.startTime = t.startTime) ∧ ∃ t ∈ S, l.endTime = t.endTime := by
  intro toks
  induction toks with
  | nil =>
    intro cur prevEnd _ hs he _ l hl
    simp only [segGo] at hl
    by_cases h : cur.text = ""
    · simp [h] at hl
    · rw [if_neg h] at hl
      rcases List.mem_singleton.mp hl with rfl
      exact ⟨hs, he h⟩
  | cons t rest ih =>
    intro cur prevEnd hsub hs he hp l hl
    have hsub' : ∀ u ∈ rest, u ∈ S := fun u hu => hsub u (List.mem_cons_of_mem t hu)
    have htS : t ∈ S := hsub t (List.mem_cons_self t rest)
    simp only [segGo] at hl
    by_cases hw : sanitizeWord t.word = ""
    · rw [if_pos hw] at hl
      exact ih cur t.endTime hsub' hs he (fun _ => ⟨t, htS, rfl⟩) l hl
    · rw [if_neg hw] at hl
      by_cases hcond :
          (if cur.text = "" then sanitizeWord t.word
            else cur.text ++ " " ++ sanitizeWord t.word).length > maxChars ∧
            cur.text ≠ ""
      · rw [if_pos hcond] at hl
        rcases List.mem_cons.mp hl with rfl | h
        · exact ⟨hs, hp hcond.2⟩
        · refine ih _ t.endTime hsub' ?_ ?_ ?_ l h
          · exact ⟨t, htS, rfl⟩
          · exact fun _ => ⟨t, htS, rfl⟩
          · exact fun _ => ⟨t, htS, rfl⟩
      · rw [if_neg hcond] at hl
        refine ih _ t.endTime hsub' ?_ ?_ ?_ l hl
        · exact hs
        · exact fun _ => ⟨t, htS, rfl⟩
        · exact fun _ => ⟨t, htS, rfl⟩

/-- Claim C5 amended: no start-time repair happens before segmentation —
tokens are only text-sanitized (with empty tokens dropped), and every
emitted line's start and end times are original token times, passed through
unchanged. -/
theorem segment_times_pass_through (maxChars : ℕ) (toks : List SubtitleWord) :
    (segmentLines maxChars toks).all (lineTimesFromTokens toks) = true := by
  rw [List.all_eq_true]
  intro l hl
  unfold lineTimesFromTokens
  cases toks with
  | nil => simp [segmentLines] at hl
  | cons t rest =>
    simp only [segmentLines] at hl
    have h := segGo_times maxChars (t :: rest) (t :: rest) ⟨"", t.startTime, 0⟩ 0
      (fun u hu => hu) ⟨t, List.mem_cons_self t rest, rfl⟩
      (fun hne => absurd rfl hne) (fun hne => absurd rfl hne) l hl
    simp only [Bool.and_eq_true, List.any_eq_true, decide_eq_true_eq]
    exact h

/-- Claim C6 counterexample: on the spec's scenario-1 tokens with
`maxChars = 20` the segmenter does NOT produce the two pause-split lines
"Hi there" (0-0.9) and "friend" (2.0-2.5): the code has no pause-based
splitting at all. -/
theorem pause_split_counterexample :
    segmentLines 20 demoTokens ≠ [⟨"Hi there", 0, 9/10⟩, ⟨"friend", 2, 5/2⟩] := by
  intro h
  have e : segmentLines 20 demoTokens = [⟨"Hi there friend", 0, 5/2⟩] := by rfl
  rw [e] at h
  simp at h

/-- Claim C6 amended: on the scenario-1 tokens with `maxChars = 20` the
segmenter (which splits only on the character budget, never on pauses)
produces exactly one line, "Hi there friend", from 0 to 2.5. -/
theorem scenario_one_single_line :
    segmentLines 20 demoTokens = [⟨"Hi there friend", 0, 5/2⟩] := by rfl

/-- Instrumented variant of the grouping loop that additionally records, for
each emitted line, the tokens whose words were actually appended to it.  The
control flow and the emitted cues are identical to `segGo`. -/
def segGoG (maxChars : ℕ) (cur : SrtCue) (g : List SubtitleWord) (prevEnd : ℚ) :
    List SubtitleWord → List (SrtCue × List SubtitleWord)
  | [] => if cur.text = "" then [] else [(cur, g)]
  | t :: rest =>
    let w := sanitizeWord t.word
    if w = "" then
      segGoG maxChars cur g t.endTime rest
    else
      let newText := if cur.text = "" then w else cur.text ++ " " ++ w
      if newText.length > maxChars ∧ cur.text ≠ "" then
        ({ cur with endTime := prevEnd }, g) ::
          segGoG maxChars ⟨w, t.startTime, t.endTime⟩ [t] t.endTime rest
      else
        segGoG maxChars ⟨newText, cur.startTime, t.endTime⟩ (g ++ [t]) t.endTime rest

/-- Instrumented segmentation: `segmentLines` with recorded token groups. -/
def segmentLinesG (maxChars : ℕ) :
    List SubtitleWord → List (SrtCue × List SubtitleWord)
  | [] => []
  | t :: rest => segGoG maxChars ⟨"", t.startTime, 0⟩ [] 0 (t :: rest)

lemma segGoG_fst (maxChars : ℕ) :
    ∀ (toks : List SubtitleWord) (cur : SrtCue) (g : List SubtitleWord) (prevEnd : ℚ),
      (segGoG maxChars cur g prevEnd toks).map Prod.fst =
        segGo maxChars cur prevEnd toks := by
  intro toks
  induction toks with
  | nil =>
    intro cur g prevEnd
    simp only [segGoG, segGo]
    split <;> simp
  | cons t rest ih =>
    intro cur g prevEnd
    simp only [segGoG, segGo]
    by_cases hw : sanitizeWord t.word = ""
    · simp only [if_pos hw]
      exact ih cur g t.endTime
    · simp only [if_neg hw]
      by_cases hcond :
          (if cur.text = "" then sanitizeWord t.word
            else cur.text ++ " " ++ sanitizeWord t.word).length > maxChars ∧
            cur.text ≠ ""
      · simp only [if_pos hcond, List.map_cons, ih]
      · simp only [if_neg hcond]
        exact ih _ _ t.endTime

/-- Boolean check that a line's start time is its group's first token's
start time and its end time the group's last token's end time. -/
def lineMatchesGroup (p : SrtCue × List SubtitleWord) : Bool :=
  match p.2.head?, p.2.getLast? with
  | some h, some z =>
    decide (p.1.startTime = h.startTime) && decide (p.1.endTime = z.endTime)
  | _, _ => false

lemma segGoG_groups (maxChars : ℕ) :
    ∀ (toks : List SubtitleWord) (cur : SrtCue) (g : List SubtitleWord) (prevEnd : ℚ),
      (∀ t ∈ toks, sanitizeWord t.word ≠ "") →
      cur.text ≠ "" →
      (∃ h, g.head? = some h ∧ cur.startTime = h.startTime) →
      (∃ z, g.getLast? = some z ∧ cur.endTime = z.endTime ∧ prevEnd = z.endTime) →
      ∀ p ∈ segGoG maxChars cur g prevEnd toks, lineMatchesGroup p = true := by
  intro toks
  induction toks with
  | nil =>
    intro cur g prevEnd _ hne hh hz p hp
    simp only [segGoG, if_neg hne] at hp
    rcases List.mem_singleton.mp hp with rfl
    rcases hh with ⟨h, hh1, hh2⟩
    rcases hz with ⟨z, hz1, hz2, _⟩
    simp [lineMatchesGroup, hh1, hz1, hh2, hz2]
  | cons t rest ih =>
    intro cur g prevEnd hsan hne hh hz p hp
    have hw : sanitizeWord t.word ≠ "" := hsan t (List.mem_cons_self t rest)
    have hsan' : ∀ u ∈ rest, sanitizeWord u.word ≠ "" :=
      fun u hu => hsan u (List.mem_cons_of_mem t hu)
    simp only [segGoG] at hp
    rw [if_neg hw] at hp
    by_cases hcond :
        (if cur.text = "" then sanitizeWord t.word
          else cur.text ++ " " ++ sanitizeWord t.word).length > maxChars ∧
          cur.text ≠ ""
    · rw [if_pos hcond] at hp
      rcases List.mem_cons.mp hp with rfl | hmem
      · rcases hh with ⟨h, hh1, hh2⟩
        rcases hz with ⟨z, hz1, _, hz3⟩
        simp [lineMatchesGroup, hh1, hz1, hh2, hz3]
      · refine ih _ [t] t.endTime hsan' hw ?_ ?_ p hmem
        · exact ⟨t, rfl, rfl⟩
        · exact ⟨t, rfl, rfl, rfl⟩
    · rw [if_neg hcond] at hp
      refine ih _ (g ++ [t]) t.endTime hsan' ?_ ?_ ?_ p hp
      · show (if cur.text = "" then sanitizeWord t.word
            else cur.text ++ " " ++ sanitizeWord t.word) ≠ ""
        rw [if_neg hne]
        intro hemp
        have hlen := congrArg String.length hemp
        rw [String.length_append, String.length_append] at hlen
        have h1 : (" " : String).length = 1 := rfl
        have h0 : ("" : String).length = 0 := rfl
        omega
      · rcases hh with ⟨h, hh1, hh2⟩
        refine ⟨h, ?_, hh2⟩
        cases g with
        | nil => simp at hh1
        | cons a g' => simpa using hh1
      · exact ⟨t, by simp, rfl, rfl⟩

/-- Claim C7 counterexample: for tokens
`[("aaaa",0,1), ("\n",1,2), ("bbbb",3,4)]` with `maxChars = 4`, the middle
token sanitizes to the empty string and is dropped, yet when the first line
is closed its end time is taken from `subtitles[i-1].endTime` — the DROPPED
token's end time 2 — instead of the end time 1 of "aaaa", the last token
actually included.  So the recorded (line, included-tokens) pairs violate
the claimed timing relation. -/
theorem dropped_token_time_counterexample :
    (segmentLinesG 4 [⟨"aaaa", 0, 1⟩, ⟨"\n", 1, 2⟩, ⟨"bbbb", 3, 4⟩]).all
        lineMatchesGroup = false ∧
      segmentLines 4 [⟨"aaaa", 0, 1⟩, ⟨"\n", 1, 2⟩, ⟨"bbbb", 3, 4⟩] =
        [⟨"aaaa", 0, 2⟩, ⟨"bbbb", 3, 4⟩] := by
  refine ⟨by rfl, by rfl⟩

/-- Claim C7 amended: when no token is dropped (every token's sanitized text
is non-empty), every emitted line's start time equals the start time of the
first token actually included in it and its end time the end time of the
last token included, as recorded by the instrumented segmentation, which
erases to the real one.  With dropped tokens present this fails (their
times can leak into line timings). -/
theorem line_times_match_groups_without_drops (maxChars : ℕ)
    (toks : List SubtitleWord)
    (hno : ∀ t ∈ toks, sanitizeWord t.word ≠ "") :
    (segmentLinesG maxChars toks).all lineMatchesGroup = true ∧
      (segmentLinesG maxChars toks).map Prod.fst = segmentLines maxChars toks := by
  constructor
  · rw [List.all_eq_true]
    intro p hp
    cases toks with
    | nil => simp [segmentLinesG] at hp
    | cons t rest =>
      have hw : sanitizeWord t.word ≠ "" := hno t (List.mem_cons_self t rest)
      have hsan' : ∀ u ∈ rest, sanitizeWord u.word ≠ "" :=
        fun u hu => hno u (List.mem_cons_of_mem t hu)
      have e1 : segmentLinesG maxChars (t :: rest) =
          segGoG maxChars ⟨sanitizeWord t.word, t.startTime, t.endTime⟩ [t]
            t.endTime rest := by
        simp only [segmentLinesG, segGoG]
        rw [if_neg hw]
        simp
      rw [e1] at hp
      exact segGoG_groups maxChars rest _ [t] t.endTime hsan' hw
        ⟨t, rfl, rfl⟩ ⟨t, rfl, rfl, rfl⟩ p hp
  · cases toks with
    | nil => rfl
    | cons t rest =>
      simp only [segmentLinesG, segmentLines]
      exact segGoG_fst maxChars (t :: rest) _ _ _

/-- Witness for the amended C7 at the scenario-1 tokens (none dropped). -/
theorem line_times_match_groups_without_drops_witness :
    (segmentLinesG 20 demoTokens).all lineMatchesGroup = true ∧
      (segmentLinesG 20 demoTokens).map Prod.fst = segmentLines 20 demoTokens :=
  line_times_match_groups_without_drops 20 demoTokens (by decide)

/-- The decimal digit character for `n % 10`. -/
def digitChar (n : ℕ) : Char :=
  match n % 10 with
  | 0 => '0' | 1 => '1' | 2 => '2' | 3 => '3' | 4 => '4'
  | 5 => '5' | 6 => '6' | 7 => '7' | 8 => '8' | _ => '9'

/-- A two-digit zero-padded field, as printed inside `toISOString()` (all
fields of the time slice are below 100). -/
def pad2 (n : ℕ) : List Char := [digitChar (n / 10), digitChar n]

/-- The three-digit zero-padded milliseconds field of `toISOString()`. -/
def pad3 (n : ℕ) : List Char :=
  [digitChar (n / 100), digitChar (n / 10), digitChar n]

/-- `formatTimestamp` clamps negative (and NaN) seconds to zero before
formatting; in the rational model only the negative case arises. -/
def clampSeconds (s : ℚ) : ℚ := if s < 0 then 0 else s

/-- The time value of the Date built by `date.setSeconds(seconds)` on
`new Date(0)`: `seconds * 1000` milliseconds, truncated to an integer by
TimeClip. -/
def totalMillis (s : ℚ) : ℕ := (⌊clampSeconds s * 1000⌋).toNat

/-- The `HH:MM:SS.mmm` slice `toISOString().substr(11, 12)` of that date,
as characters (hours wrap modulo 24 at the ISO day boundary). -/
def isoTimeChars (ms : ℕ) : List Char :=
  pad2 (ms / 3600000 % 24) ++ ':' :: pad2 (ms / 60000 % 60) ++
    ':' :: pad2 (ms / 1000 % 60) ++ '.' :: pad3 (ms % 1000)

/-- JavaScript `String.prototype.replace` with a one-character string
pattern: replace the first occurrence only. -/
def replaceFirst (a b : Char) : List Char → List Char
  | [] => []
  | c :: cs => if c = a then b :: cs else c :: replaceFirst a b cs

/-- `formatTimestamp(seconds, 'srt')`: clamp, take the ISO time slice, and
replace the '.' with ','. -/
def formatTimestampSrt (seconds : ℚ) : String :=
  (replaceFirst '.' ',' (isoTimeChars (totalMillis seconds))).asString

/-- JavaScript `Array.prototype.join(sep)`. -/
def joinSep (sep : String) : List String → String
  | [] => ""
  | [s] => s
  | s :: rest => s ++ sep ++ joinSep sep rest

/-- One rendered block of step 4 of the `srt` export: the 1-based index, a
newline, `start --> end`, a newline, and the block text. -/
def srtBlockText (idx : ℕ) (b : SrtCue) : String :=
  toString (idx + 1) ++ "\n" ++ formatTimestampSrt b.startTime ++ " --> " ++
    formatTimestampSrt b.endTime ++ "\n" ++ b.text

/-- Step 4 of the `srt` export:
`finalSrtBlocks.map((block, index) => ...).join('\n\n')`. -/
def srtContent (blocks : List SrtCue) : String :=
  joinSep "\n\n" (blocks.enum.map fun p => srtBlockText p.1 p.2)

/-- Modelled from the claim wording: `HH:MM:SS,mmm` with the comma written
directly as the fractional-seconds separator and `mmm` carrying the time's
milliseconds. -/
def srtTimeChars (ms : ℕ) : List Char :=
  pad2 (ms / 3600000 % 24) ++ ':' :: pad2 (ms / 60000 % 60) ++
    ':' :: pad2 (ms / 1000 % 60) ++ ',' :: pad3 (ms % 1000)

/-- Modelled from the claim wording: the timestamp clamped at zero and
rendered as `HH:MM:SS,mmm`. -/
def formatTimestampSpec (seconds : ℚ) : String :=
  (srtTimeChars (totalMillis seconds)).asString

/-- Modelled from the claim wording: one block's rendering. -/
def srtBlockTextSpec (idx : ℕ) (b : SrtCue) : String :=
  toString (idx + 1) ++ "\n" ++ formatTimestampSpec b.startTime ++ " --> " ++
    formatTimestampSpec b.endTime ++ "\n" ++ b.text

/-- Modelled from the claim wording: blocks rendered in order with 1-based
indices, consecutive blocks separated by exactly one blank line. -/
def srtContentSpecAux : ℕ → List SrtCue → String
  | _, [] => ""
  | idx, [b] => srtBlockTextSpec idx b
  | idx, b :: rest =>
    srtBlockTextSpec idx b ++ "\n\n" ++ srtContentSpecAux (idx + 1) rest

/-- Modelled from the claim wording: the whole subtitle-timed text. -/
def srtContentSpec (blocks : List SrtCue) : String := srtContentSpecAux 0 blocks

lemma digitChar_ne_dot (n : ℕ) : digitChar n ≠ '.' := by
  unfold digitChar
  split <;> decide

lemma dot_ne_digitChar (n : ℕ) : ¬ ('.' : Char) = digitChar n :=
  fun h => digitChar_ne_dot n h.symm

lemma dot_ne_colon : ¬ ('.' : Char) = ':' := by decide

lemma replaceFirst_append (a b : Char) (ys : List Char) :
    ∀ xs : List Char, a ∉ xs → replaceFirst a b (xs ++ a :: ys) = xs ++ b :: ys := by
  intro xs
  induction xs with
  | nil => intro _; simp [replaceFirst]
  | cons c cs ih =>
    intro h
    have hc : c ≠ a := fun hc => h (hc ▸ List.mem_cons_self c cs)
    simp only [List.cons_append, replaceFirst, if_neg hc, List.append_eq]
    rw [ih fun hm => h (List.mem_cons_of_mem c hm)]

lemma formatTimestampSrt_eq (s : ℚ) :
    formatTimestampSrt s = formatTimestampSpec s := by
  unfold formatTimestampSrt formatTimestampSpec isoTimeChars srtTimeChars
  congr 1
  refine replaceFirst_append '.' ',' _ _ ?_
  simp [pad2, dot_ne_digitChar, dot_ne_colon]

lemma srtBlockText_eq (idx : ℕ) (b : SrtCue) :
    srtBlockText idx b = srtBlockTextSpec idx b := by
  unfold srtBlockText srtBlockTextSpec
  rw [formatTimestampSrt_eq, formatTimestampSrt_eq]

lemma srtContentAux_eq :
    ∀ (blocks : List SrtCue) (i : ℕ),
      joinSep "\n\n" ((blocks.enumFrom i).map fun p => srtBlockText p.1 p.2) =
        srtContentSpecAux i blocks := by
  intro blocks
  induction blocks with
  | nil => intro i; rfl
  | cons b rest ih =>
    intro i
    cases rest with
    | nil => exact srtBlockText_eq i b
    | cons b' rest' =>
      show srtBlockText i b ++ "\n\n" ++
          joinSep "\n\n" (((b' :: rest').enumFrom (i + 1)).map
            fun p => srtBlockText p.1 p.2) =
        srtBlockTextSpec i b ++ "\n\n" ++ srtContentSpecAux (i + 1) (b' :: rest')
      rw [ih (i + 1), srtBlockText_eq]

/-- Claim C8: the SRT export renders each block as its 1-based index, a
newline, start and end times formatted `HH:MM:SS,mmm` (comma separator,
negative input clamped to zero, `mmm` the time's milliseconds), the
separator " --> ", a newline, and the block text, with consecutive blocks
separated by exactly one blank line. -/
theorem srt_render_format (blocks : List SrtCue) :
    srtContent blocks = srtContentSpec blocks := by
  unfold srtContent srtContentSpec
  rw [show blocks.enum = blocks.enumFrom 0 from rfl]
  exact srtContentAux_eq blocks 0

/-- A JSON value, as far as the exports of this app need one. -/
inductive JsonVal where
  | jstr : String → JsonVal
  | jnum : ℚ → JsonVal
  | jarr : List JsonVal → JsonVal
  | jobj : List (String × JsonVal) → JsonVal

/-- Field lookup in a JSON object's field list. -/
def lookupField : List (String × JsonVal) → String → Option JsonVal
  | [], _ => none
  | (k', v) :: rest, k => if k' = k then some v else lookupField rest k

/-- Field lookup on a JSON value (none on non-objects). -/
def objLookup : JsonVal → String → Option JsonVal
  | .jobj fields, k => lookupField fields k
  | _, _ => none

/-- One record of the `prtranscript` export:
`{'start-time': s.startTime, 'end-time': s.endTime, word: s.word}`. -/
def tokenRecord (s : SubtitleWord) : JsonVal :=
  .jobj [("start-time", .jnum s.startTime), ("end-time", .jnum s.endTime),
    ("word", .jstr s.word)]

/-- The object built in the `prtranscript` case of `handleDownload`:
`{version: '1.0', 'word-level-transcript': subtitles.map(...)}`. -/
def prTranscriptObject (subs : List SubtitleWord) : JsonVal :=
  .jobj [("version", .jstr "1.0"),
    ("word-level-transcript", .jarr (subs.map tokenRecord))]

/-- Claim C9 counterexample: on the one-token input `("Hi", 0, 0.4)` the
transcript-wrapper object has NO field named `records` — the record list
lives under the field `word-level-transcript` instead. -/
theorem transcript_records_field_counterexample :
    objLookup (prTranscriptObject [⟨"Hi", 0, 2/5⟩]) "records" = none ∧
      objLookup (prTranscriptObject [⟨"Hi", 0, 2/5⟩]) "word-level-transcript" =
        some (.jarr [tokenRecord ⟨"Hi", 0, 2/5⟩]) := by
  exact ⟨rfl, rfl⟩

/-- Claim C9 amended: the transcript-wrapper export has `version = "1.0"`
and carries, under the field `word-level-transcript` (not `records`), one
record per token with fields `start-time`, `end-time`, `word` holding that
token's times and word unchanged and in order. -/
theorem transcript_wrapper_fields (subs : List SubtitleWord) :
    objLookup (prTranscriptObject subs) "version" = some (.jstr "1.0") ∧
      objLookup (prTranscriptObject subs) "word-level-transcript" =
        some (.jarr (subs.map tokenRecord)) ∧
      ∀ i : ℕ, (subs.map tokenRecord)[i]? = subs[i]?.map tokenRecord := by
  refine ⟨rfl, rfl, fun i => ?_⟩
  simp

end SubtitleCreator
